import Mathlib

/-!
Verification of the BYOEI sync pipeline (`connectors/byoei.py`):
a shallow embedding of the `Bulker`, `Fetcher` and `ElasticServer.async_bulk`
logic, followed by theorems about classification, batching, delete emission
and the aggregate counters.

Modelling conventions:
* Python dicts whose values the code reads/writes as strings (documents,
  timestamp maps) are association lists `List (String × String)`;
  `docGet`/`docErase`/`docInsert` mirror `d[k]` / `del d[k]` (via `pop`) /
  `d[k] = v`.
* The shared asyncio queue is modelled by the list of values put on it, in
  the order a FIFO delivers them; `asyncio` task scheduling is modelled by
  explicit sequencing of the producers' output lists.
* `iso_utc()` (wall-clock time) is passed in as the parameter `now`.
* A `lazy_download` capability is modelled by the attachment fields its
  committed invocation eventually yields (`none` when it yields nothing).
* Fallible paths (`doc.pop("_id")` on a missing key, calling a `None`
  capability) return `Except.error` with the Python exception name.
-/

namespace Byoei

/-- A document / attachment-result: a Python dict with string fields. -/
abbrev Doc := List (String × String)

/-- The snapshot's `existing_timestamps` dict. -/
abbrev TsMap := List (String × String)

/-- `d[k]` as an optional lookup (first binding wins, as dict keys are unique). -/
def docGet : Doc → String → Option String
  | [], _ => none
  | (k, v) :: rest, key => if k = key then some v else docGet rest key

/-- Removing key `k` from a dict (the effect of `d.pop(k)` on the dict). -/
def docErase : Doc → String → Doc
  | [], _ => []
  | (k, v) :: rest, key =>
      if k = key then docErase rest key else (k, v) :: docErase rest key

/-- `d[k] = v` on a dict: any old binding for `k` is replaced. -/
def docInsert (d : Doc) (k v : String) : Doc :=
  docErase d k ++ [(k, v)]

/-- `self.existing_timestamps.get(doc_id, "")` from `Fetcher.get_docs`. -/
def tsGet (ts : TsMap) (i : String) : String :=
  (docGet ts i).getD ""

/-- A lazy download capability, represented by the attachment fields its
`doit=True` invocation eventually yields (`None` in Python becomes `none`). -/
structure LazyDownload where
  result : Option Doc
deriving DecidableEq

/-- One bulk operation dict put on the shared queue: `_op_type`, `_index`,
`_id`, and (for `create`/`update`) the `doc` body sent with
`doc_as_upsert=True`; a `delete` dict carries no `doc` key. -/
structure OpItem where
  op_type : String
  index : String
  id : String
  doc : Option Doc
deriving DecidableEq

/-- A value travelling on the shared queue: an operation dict or one of the
two in-band end-of-stream sentinels `"END_DOCS"` / `"END_DOWNLOADS"`. -/
inductive QItem where
  | endDocs
  | endDownloads
  | item (o : OpItem)
deriving DecidableEq

/-- One JSON line of the bulk request body: an action descriptor
`{name: {"_index": index, "_id": id}}` or a body line
`{"doc": doc, "doc_as_upsert": true}`. -/
inductive WireEntry where
  | action (name index id : String)
  | body (doc : Option Doc)
deriving DecidableEq

/-- The per-operation-type counter map `self.ops` (a `defaultdict(int)`). -/
abbrev OpsMap := List (String × Nat)

/-- `self.ops[operation] += 1` with `defaultdict(int)` semantics. -/
def opsIncr : OpsMap → String → OpsMap
  | [], key => [(key, 1)]
  | (k, n) :: rest, key =>
      if k = key then (k, n + 1) :: rest else (k, n) :: opsIncr rest key

/-- Total number of operations recorded in the counter map. -/
def sumCounts (m : OpsMap) : Nat :=
  (m.map Prod.snd).sum

/-- The wire entries `Bulker.run` appends to `batch` for one operation
(lines 61-68): `update` and `create` both become an `"update"` action
descriptor followed by a `doc_as_upsert` body; any other `_op_type`
(i.e. `delete`) becomes a single action descriptor named after it. -/
def encodeWire (o : OpItem) : List WireEntry :=
  if o.op_type = "update" ∨ o.op_type = "create" then
    [WireEntry.action "update" o.index o.id, WireEntry.body o.doc]
  else
    [WireEntry.action o.op_type o.index o.id]

/-- Outcome of `Bulker.run`: `finished` is whether the drain loop reached its
`break` (both sentinels observed); `batch` is the accumulator at that point
(before the post-loop flush); `dispatched` is the list of batches handed to
`_batch_bulk` tasks, in dispatch order; `ops` is the counter map; `leftover`
is the part of the queue sequence the loop never consumed. -/
structure BulkerResult where
  finished : Bool
  batch : List WireEntry
  dispatched : List (List WireEntry)
  ops : OpsMap
  leftover : List QItem
deriving DecidableEq

/-- The `while True` drain loop of `Bulker.run` (lines 47-74), one queue
value per iteration.  Each iteration updates `docs_ended` / `downloads_ended`
from the value read, breaks when both are set, skips sentinel values,
otherwise counts the operation, appends its wire entries, and hands the
batch to a dispatch task once it holds at least `chunk_size * 2` entries.
If the queue sequence runs out before both sentinels were seen the real
coroutine would block forever; that stuck state is returned with
`finished := false`. -/
def bulkerLoop (chunk : Nat) (de dle : Bool) (batch : List WireEntry)
    (disp : List (List WireEntry)) (ops : OpsMap) :
    List QItem → BulkerResult
  | [] => ⟨false, batch, disp, ops, []⟩
  | QItem.endDocs :: rest =>
      if dle then ⟨true, batch, disp, ops, rest⟩
      else bulkerLoop chunk true dle batch disp ops rest
  | QItem.endDownloads :: rest =>
      if de then ⟨true, batch, disp, ops, rest⟩
      else bulkerLoop chunk de true batch disp ops rest
  | QItem.item o :: rest =>
      if de && dle then ⟨true, batch, disp, ops, rest⟩
      else
        let batch2 := batch ++ encodeWire o
        if chunk * 2 ≤ batch2.length then
          bulkerLoop chunk de dle [] (disp ++ [batch2]) (opsIncr ops o.op_type) rest
        else
          bulkerLoop chunk de dle batch2 disp (opsIncr ops o.op_type) rest

/-- `self.chunk_size = 500` from `Bulker.__init__`. -/
def chunk_size : Nat := 500

/-- `Bulker.run` over a delivered queue sequence: drain the queue, then
dispatch any non-empty remaining batch (lines 76-78) and gather the
dispatch tasks (the gathered batches are exactly `dispatched`). -/
def bulkerRun (chunk : Nat) (input : List QItem) : BulkerResult :=
  let r := bulkerLoop chunk false false [] [] [] input
  if r.finished && !r.batch.isEmpty then
    { finished := r.finished
      batch := []
      dispatched := r.dispatched ++ [r.batch]
      ops := r.ops
      leftover := r.leftover }
  else r

/-- Mutable state of `Fetcher.get_docs` while consuming the generator:
`seen_ids`, the operations put on the shared queue so far, the download
results scheduled on `self._downloads` (in scheduling order), and the two
classification counters. -/
structure FetchAcc where
  seen_ids : List String
  queued : List QItem
  downloads : List (Option Doc)
  total_docs_created : Nat
  total_docs_updated : Nat
deriving DecidableEq

/-- `doc_id = doc["id"] = doc.pop("_id")` (line 148): remove `_id`, bind the
`id` field to its value. -/
def assignId (d : Doc) (docId : String) : Doc :=
  docInsert (docErase d "_id") "id" docId

/-- The tail of one non-skipped iteration of `Fetcher.get_docs`
(lines 166-189): schedule the lazy download if present, classify the id as
update (already in `existing_ids`) or create, bump the matching counter and
put the operation dict on the shared queue. -/
def classifyEnqueue (index : String) (ids : List String) (acc : FetchAcc)
    (docId : String) (d : Doc) (lazy : Option LazyDownload) : FetchAcc :=
  let downloads2 := match lazy with
    | some ld => acc.downloads ++ [ld.result]
    | none => acc.downloads
  if docId ∈ ids then
    { acc with
      downloads := downloads2
      total_docs_updated := acc.total_docs_updated + 1
      queued := acc.queued ++ [QItem.item ⟨"update", index, docId, some d⟩] }
  else
    { acc with
      downloads := downloads2
      total_docs_created := acc.total_docs_created + 1
      queued := acc.queued ++ [QItem.item ⟨"create", index, docId, some d⟩] }

/-- One iteration of the `async for doc in generator` loop of
`Fetcher.get_docs` (lines 146-189).  `doc.pop("_id")` on a dict without
`_id` raises `KeyError`; on the skip path `lazy_download(doit=False)` is
called unconditionally, which raises `TypeError` when the pair carried no
capability. -/
def getDocsStep (now index : String) (ids : List String) (ts : TsMap)
    (acc : FetchAcc) : Doc × Option LazyDownload → Except String FetchAcc
  | (d, lazy) =>
    match docGet d "_id" with
    | none => Except.error "KeyError: _id"
    | some docId =>
      let d1 := assignId d docId
      let seen2 := acc.seen_ids.insert docId
      match docGet d1 "timestamp" with
      | some t =>
          if tsGet ts docId = t then
            match lazy with
            | none => Except.error "TypeError: NoneType object is not callable"
            | some _ => Except.ok { acc with seen_ids := seen2 }
          else
            Except.ok (classifyEnqueue index ids { acc with seen_ids := seen2 } docId d1 lazy)
      | none =>
          Except.ok (classifyEnqueue index ids { acc with seen_ids := seen2 } docId
            (docInsert d1 "timestamp" now) lazy)

/-- The generator-consuming loop of `Fetcher.get_docs`. -/
def getDocsLoop (now index : String) (ids : List String) (ts : TsMap)
    (acc : FetchAcc) : List (Doc × Option LazyDownload) → Except String FetchAcc
  | [] => Except.ok acc
  | p :: rest =>
      match getDocsStep now index ids ts acc p with
      | Except.error e => Except.error e
      | Except.ok acc2 => getDocsLoop now index ids ts acc2 rest

/-- The delete dict `{"_op_type": "delete", "_index": index, "_id": doc_id}`. -/
def mkDelete (index i : String) : OpItem :=
  ⟨"delete", index, i, none⟩

/-- The post-generator delete phase of `Fetcher.get_docs` (lines 191-198):
one delete per snapshot id not seen this pass, in snapshot iteration order. -/
def deletesFor (index : String) (ids seen : List String) : List QItem :=
  (ids.filter fun i => decide (i ∉ seen)).map fun i => QItem.item (mkDelete index i)

/-- `Fetcher.get_docs` over the whole generator output: consume every pair,
then enqueue the deletes and the `"END_DOCS"` sentinel (the `"END"` sentinel
for `self._downloads` is implicit in the end of the `downloads` list). -/
def getDocs (now index : String) (ids : List String) (ts : TsMap)
    (gen : List (Doc × Option LazyDownload)) : Except String FetchAcc :=
  match getDocsLoop now index ids ts ⟨[], [], [], 0, 0⟩ gen with
  | Except.error e => Except.error e
  | Except.ok acc =>
      Except.ok { acc with
        queued := acc.queued ++ deletesFor index ids acc.seen_ids ++ [QItem.endDocs] }

/-- The update dict `Fetcher.get_attachments` builds from a download result
(lines 115-125): `data.pop("_id")` becomes the `_id`, the rest is the body. -/
def mkAttachOp (index : String) (data : Doc) : OpItem :=
  ⟨"update", index, (docGet data "_id").getD "", some (docErase data "_id")⟩

/-- The drain loop of `Fetcher.get_attachments` (lines 104-127) over the
scheduled download results in scheduling order: a `None` result is
discarded, any other result is counted and wrapped as an update operation.
Returns the queue puts and `total_downloads`. -/
def getAttachmentsLoop (index : String) : List (Option Doc) → List QItem × Nat
  | [] => ([], 0)
  | none :: rest => getAttachmentsLoop index rest
  | some data :: rest =>
      let r := getAttachmentsLoop index rest
      (QItem.item (mkAttachOp index data) :: r.1, r.2 + 1)

/-- `Fetcher.get_attachments`: the drain loop followed by the
`"END_DOWNLOADS"` sentinel put (line 129). -/
def getAttachments (index : String) (results : List (Option Doc)) :
    List QItem × Nat :=
  let r := getAttachmentsLoop index results
  (r.1 ++ [QItem.endDownloads], r.2)

/-- The dict `ElasticServer.async_bulk` returns (lines 283-289). -/
structure SyncResult where
  bulk_operations : OpsMap
  doc_created : Nat
  attachment_extracted : Nat
  doc_updated : Nat
deriving DecidableEq

/-- `ElasticServer.async_bulk` for a snapshot already scanned into
`ids`/`ts`: run the fetcher and the bulker against the shared queue and
aggregate the counters.  The concurrent producers are serialized here in
one valid cooperative schedule: every `get_docs` put precedes every
`get_attachments` put (each producer's own FIFO order is always preserved
by the queue). -/
def async_bulk (chunk : Nat) (now index : String) (ids : List String)
    (ts : TsMap) (gen : List (Doc × Option LazyDownload)) :
    Except String SyncResult :=
  match getDocs now index ids ts gen with
  | Except.error e => Except.error e
  | Except.ok acc =>
      let att := getAttachments index acc.downloads
      let r := bulkerRun chunk (acc.queued ++ att.1)
      Except.ok ⟨r.ops, acc.total_docs_created, att.2, acc.total_docs_updated⟩

/-- The operations among a queue sequence (sentinels dropped). -/
def itemsOf (qs : List QItem) : List OpItem :=
  qs.filterMap fun q => match q with
    | QItem.item o => some o
    | _ => none

/-- Whether a queue value is a create/update operation dict. -/
def isUpsertItem : QItem → Bool
  | QItem.item o => o.op_type == "create" || o.op_type == "update"
  | _ => false

/-- A queue sequence exercising the batching bound: 999 one-entry deletes
followed by a two-entry update and the two sentinels. -/
def oddBatchInput : List QItem :=
  List.replicate 999 (QItem.item (mkDelete "idx" "x"))
    ++ [QItem.item ⟨"update", "idx", "u", some [("id", "u")]⟩,
        QItem.endDocs, QItem.endDownloads]

/- ------------------------------------------------------------------ -/
/- Lemmas about the dict operations.                                  -/
/- ------------------------------------------------------------------ -/

lemma docGet_append (l1 l2 : Doc) (k : String) :
    docGet (l1 ++ l2) k
      = match docGet l1 k with
        | some v => some v
        | none => docGet l2 k := by
  induction l1 with
  | nil => simp [docGet]
  | cons p rest ih =>
      obtain ⟨a, b⟩ := p
      by_cases h : a = k <;> simp [docGet, h, ih]

lemma docGet_erase_self (d : Doc) (k : String) :
    docGet (docErase d k) k = none := by
  induction d with
  | nil => simp [docErase, docGet]
  | cons p rest ih =>
      obtain ⟨a, b⟩ := p
      by_cases h : a = k <;> simp [docErase, docGet, h, ih]

lemma docGet_erase_ne (d : Doc) (k k2 : String) (h : k ≠ k2) :
    docGet (docErase d k) k2 = docGet d k2 := by
  induction d with
  | nil => simp [docErase]
  | cons p rest ih =>
      obtain ⟨a, b⟩ := p
      by_cases ha : a = k
      · subst ha
        simp [docErase, docGet, h, ih]
      · by_cases hb : a = k2
        · subst hb
          simp [docErase, docGet, ha, ih]
        · simp [docErase, docGet, ha, hb, ih]

lemma docGet_insert_self (d : Doc) (k v : String) :
    docGet (docInsert d k v) k = some v := by
  unfold docInsert
  rw [docGet_append, docGet_erase_self]
  simp [docGet]

lemma docGet_insert_ne (d : Doc) (k v k2 : String) (h : k ≠ k2) :
    docGet (docInsert d k v) k2 = docGet d k2 := by
  unfold docInsert
  rw [docGet_append, docGet_erase_ne d k k2 h]
  cases hd : docGet d k2 <;> simp [docGet, h]

lemma assignId_get_id (d : Doc) (i : String) :
    docGet (assignId d i) "id" = some i :=
  docGet_insert_self _ _ _

lemma assignId_get_uid (d : Doc) (i : String) :
    docGet (assignId d i) "_id" = none := by
  unfold assignId
  rw [docGet_insert_ne _ _ _ _ (by decide)]
  exact docGet_erase_self _ _

lemma assignId_get_timestamp (d : Doc) (i : String) :
    docGet (assignId d i) "timestamp" = docGet d "timestamp" := by
  unfold assignId
  rw [docGet_insert_ne _ _ _ _ (by decide), docGet_erase_ne _ _ _ (by decide)]

/- ------------------------------------------------------------------ -/
/- Lemmas about the counter map and the wire encoding.                -/
/- ------------------------------------------------------------------ -/

lemma sumCounts_opsIncr (m : OpsMap) (k : String) :
    sumCounts (opsIncr m k) = sumCounts m + 1 := by
  induction m with
  | nil => simp [opsIncr, sumCounts]
  | cons p rest ih =>
      obtain ⟨a, n⟩ := p
      by_cases h : a = k <;> simp [opsIncr, h, sumCounts] at ih ⊢ <;> omega

lemma encodeWire_length (o : OpItem) : (encodeWire o).length ≤ 2 := by
  unfold encodeWire
  split <;> simp

lemma encodeWire_no_create (o : OpItem) (i d : String) :
    WireEntry.action "create" i d ∉ encodeWire o := by
  unfold encodeWire
  split
  · simp
  · rename_i h
    simp only [List.mem_singleton]
    intro hc
    rw [WireEntry.action.injEq] at hc
    exact h (Or.inr hc.1.symm)

@[simp] lemma itemsOf_nil : itemsOf [] = [] := rfl

@[simp] lemma itemsOf_cons_endDocs (ws : List QItem) :
    itemsOf (QItem.endDocs :: ws) = itemsOf ws := rfl

@[simp] lemma itemsOf_cons_endDownloads (ws : List QItem) :
    itemsOf (QItem.endDownloads :: ws) = itemsOf ws := rfl

@[simp] lemma itemsOf_cons_item (o : OpItem) (ws : List QItem) :
    itemsOf (QItem.item o :: ws) = o :: itemsOf ws := rfl

@[simp] lemma itemsOf_append (l1 l2 : List QItem) :
    itemsOf (l1 ++ l2) = itemsOf l1 ++ itemsOf l2 :=
  List.filterMap_append _ _ _

/- ------------------------------------------------------------------ -/
/- Lemmas about `classifyEnqueue` and `getDocsStep`.                  -/
/- ------------------------------------------------------------------ -/

lemma classifyEnqueue_queued (index : String) (ids : List String) (acc : FetchAcc)
    (docId : String) (d : Doc) (lazy : Option LazyDownload) :
    ∃ q, (classifyEnqueue index ids acc docId d lazy).queued = acc.queued ++ [q]
      ∧ isUpsertItem q = true := by
  by_cases hm : docId ∈ ids
  · exact ⟨QItem.item ⟨"update", index, docId, some d⟩,
      by cases lazy <;> simp [classifyEnqueue, hm], rfl⟩
  · exact ⟨QItem.item ⟨"create", index, docId, some d⟩,
      by cases lazy <;> simp [classifyEnqueue, hm], rfl⟩

lemma classifyEnqueue_counters (index : String) (ids : List String) (acc : FetchAcc)
    (docId : String) (d : Doc) (lazy : Option LazyDownload) :
    (classifyEnqueue index ids acc docId d lazy).total_docs_created
        + (classifyEnqueue index ids acc docId d lazy).total_docs_updated
      = acc.total_docs_created + acc.total_docs_updated + 1
    ∧ (classifyEnqueue index ids acc docId d lazy).seen_ids = acc.seen_ids := by
  cases lazy <;> by_cases hm : docId ∈ ids <;>
    (constructor <;> simp [classifyEnqueue, hm]) <;> omega

/- ------------------------------------------------------------------ -/
/- Lemmas about the Bulker drain loop.                                -/
/- ------------------------------------------------------------------ -/

lemma bulkerLoop_bound (chunk : Nat) (hc : 0 < chunk) (input : List QItem) :
    ∀ (de dle : Bool) (batch : List WireEntry)
      (disp : List (List WireEntry)) (ops : OpsMap),
      batch.length < chunk * 2 →
      (∀ b ∈ disp, b.length ≤ chunk * 2 + 1) →
      (bulkerLoop chunk de dle batch disp ops input).batch.length < chunk * 2
      ∧ ∀ b ∈ (bulkerLoop chunk de dle batch disp ops input).dispatched,
          b.length ≤ chunk * 2 + 1 := by
  induction input with
  | nil =>
      intro de dle batch disp ops hb hd
      exact ⟨hb, hd⟩
  | cons q rest ih =>
      intro de dle batch disp ops hb hd
      match q with
      | QItem.endDocs =>
          simp only [bulkerLoop]
          split
          · exact ⟨hb, hd⟩
          · exact ih true dle batch disp ops hb hd
      | QItem.endDownloads =>
          simp only [bulkerLoop]
          split
          · exact ⟨hb, hd⟩
          · exact ih de true batch disp ops hb hd
      | QItem.item o =>
          simp only [bulkerLoop]
          split
          · exact ⟨hb, hd⟩
          · have hlen : (batch ++ encodeWire o).length ≤ chunk * 2 + 1 := by
              have h1 := encodeWire_length o
              simp only [List.length_append]
              omega
            split
            · refine ih de dle [] (disp ++ [batch ++ encodeWire o]) _ (by simpa using by omega) ?_
              intro b hbm
              rcases List.mem_append.mp hbm with hbm | hbm
              · exact hd b hbm
              · rw [List.mem_singleton.mp hbm]
                exact hlen
            · rename_i hflush
              exact ih de dle _ disp _ (by omega) hd

lemma bulkerLoop_no_create (chunk : Nat) (i d : String) (input : List QItem) :
    ∀ (de dle : Bool) (batch : List WireEntry)
      (disp : List (List WireEntry)) (ops : OpsMap),
      WireEntry.action "create" i d ∉ batch →
      (∀ b ∈ disp, WireEntry.action "create" i d ∉ b) →
      WireEntry.action "create" i d ∉ (bulkerLoop chunk de dle batch disp ops input).batch
      ∧ ∀ b ∈ (bulkerLoop chunk de dle batch disp ops input).dispatched,
          WireEntry.action "create" i d ∉ b := by
  induction input with
  | nil =>
      intro de dle batch disp ops hb hd
      exact ⟨hb, hd⟩
  | cons q rest ih =>
      intro de dle batch disp ops hb hd
      have hb2 : WireEntry.action "create" i d ∉ batch ++ encodeWire (match q with
          | QItem.item o => o
          | _ => ⟨"", "", "", none⟩) := by
        intro hmem
        rcases List.mem_append.mp hmem with hmem | hmem
        · exact hb hmem
        · exact encodeWire_no_create _ i d hmem
      match q with
      | QItem.endDocs =>
          simp only [bulkerLoop]
          split
          · exact ⟨hb, hd⟩
          · exact ih true dle batch disp ops hb hd
      | QItem.endDownloads =>
          simp only [bulkerLoop]
          split
          · exact ⟨hb, hd⟩
          · exact ih de true batch disp ops hb hd
      | QItem.item o =>
          simp only [bulkerLoop]
          split
          · exact ⟨hb, hd⟩
          · split
            · refine ih de dle [] (disp ++ [batch ++ encodeWire o]) _ (by simp) ?_
              intro b hbm
              rcases List.mem_append.mp hbm with hbm | hbm
              · exact hd b hbm
              · rw [List.mem_singleton.mp hbm]
                exact hb2
            · exact ih de dle _ disp _ hb2 hd

lemma skimDocs (chunk : Nat) (rest : List QItem) :
    ∀ (ws : List QItem) (de : Bool) (batch : List WireEntry)
      (disp : List (List WireEntry)) (ops : OpsMap),
      QItem.endDownloads ∉ ws →
      ∃ b2 d2 o2,
        bulkerLoop chunk de false batch disp ops (ws ++ rest)
          = bulkerLoop chunk (de || decide (QItem.endDocs ∈ ws)) false b2 d2 o2 rest
        ∧ d2.flatten ++ b2
            = disp.flatten ++ batch ++ (itemsOf ws).flatMap encodeWire
        ∧ sumCounts o2 = sumCounts ops + (itemsOf ws).length := by
  intro ws
  induction ws with
  | nil =>
      intro de batch disp ops hw
      exact ⟨batch, disp, ops, by simp, by simp [itemsOf], by simp [itemsOf]⟩
  | cons q ws ih =>
      intro de batch disp ops hw
      have hw2 : QItem.endDownloads ∉ ws := fun h => hw (List.mem_cons_of_mem _ h)
      match q with
      | QItem.endDocs =>
          obtain ⟨b2, d2, o2, heq, hfl, hsum⟩ := ih true batch disp ops hw2
          refine ⟨b2, d2, o2, ?_, by simpa using hfl, by simpa using hsum⟩
          rw [List.cons_append]
          simp only [bulkerLoop, if_neg (by simp : ¬(false = true))]
          rw [heq]
          congr 1
          simp [List.mem_cons]
      | QItem.endDownloads =>
          exact absurd (List.mem_cons_self _ _) hw
      | QItem.item o =>
          rw [List.cons_append]
          simp only [bulkerLoop, Bool.and_false, if_neg (by simp : ¬(false = true))]
          by_cases hflush : chunk * 2 ≤ (batch ++ encodeWire o).length
          · obtain ⟨b2, d2, o2, heq, hfl, hsum⟩ :=
              ih de [] (disp ++ [batch ++ encodeWire o]) (opsIncr ops o.op_type) hw2
            rw [if_pos hflush]
            refine ⟨b2, d2, o2, ?_, ?_, ?_⟩
            · rw [heq]
              congr 1
              simp [List.mem_cons]
            · rw [hfl]
              simp [List.append_assoc]
            · rw [hsum, sumCounts_opsIncr]
              simp only [itemsOf_cons_item, List.length_cons]
              omega
          · obtain ⟨b2, d2, o2, heq, hfl, hsum⟩ :=
              ih de (batch ++ encodeWire o) disp (opsIncr ops o.op_type) hw2
            rw [if_neg hflush]
            refine ⟨b2, d2, o2, ?_, ?_, ?_⟩
            · rw [heq]
              congr 1
              simp [List.mem_cons]
            · rw [hfl]
              simp [List.append_assoc]
            · rw [hsum, sumCounts_opsIncr]
              simp only [itemsOf_cons_item, List.length_cons]
              omega

lemma skimDownloads (chunk : Nat) (rest : List QItem) :
    ∀ (ws : List QItem) (dle : Bool) (batch : List WireEntry)
      (disp : List (List WireEntry)) (ops : OpsMap),
      QItem.endDocs ∉ ws →
      ∃ b2 d2 o2,
        bulkerLoop chunk false dle batch disp ops (ws ++ rest)
          = bulkerLoop chunk false (dle || decide (QItem.endDownloads ∈ ws)) b2 d2 o2 rest
        ∧ d2.flatten ++ b2
            = disp.flatten ++ batch ++ (itemsOf ws).flatMap encodeWire
        ∧ sumCounts o2 = sumCounts ops + (itemsOf ws).length := by
  intro ws
  induction ws with
  | nil =>
      intro dle batch disp ops hw
      exact ⟨batch, disp, ops, by simp, by simp [itemsOf], by simp [itemsOf]⟩
  | cons q ws ih =>
      intro dle batch disp ops hw
      have hw2 : QItem.endDocs ∉ ws := fun h => hw (List.mem_cons_of_mem _ h)
      match q with
      | QItem.endDownloads =>
          obtain ⟨b2, d2, o2, heq, hfl, hsum⟩ := ih true batch disp ops hw2
          refine ⟨b2, d2, o2, ?_, by simpa using hfl, by simpa using hsum⟩
          rw [List.cons_append]
          simp only [bulkerLoop, if_neg (by simp : ¬(false = true))]
          rw [heq]
          congr 1
          simp [List.mem_cons]
      | QItem.endDocs =>
          exact absurd (List.mem_cons_self _ _) hw
      | QItem.item o =>
          rw [List.cons_append]
          simp only [bulkerLoop, Bool.false_and, if_neg (by simp : ¬(false = true))]
          by_cases hflush : chunk * 2 ≤ (batch ++ encodeWire o).length
          · obtain ⟨b2, d2, o2, heq, hfl, hsum⟩ :=
              ih dle [] (disp ++ [batch ++ encodeWire o]) (opsIncr ops o.op_type) hw2
            rw [if_pos hflush]
            refine ⟨b2, d2, o2, ?_, ?_, ?_⟩
            · rw [heq]
              congr 1
              simp [List.mem_cons]
            · rw [hfl]
              simp [List.append_assoc]
            · rw [hsum, sumCounts_opsIncr]
              simp only [itemsOf_cons_item, List.length_cons]
              omega
          · obtain ⟨b2, d2, o2, heq, hfl, hsum⟩ :=
              ih dle (batch ++ encodeWire o) disp (opsIncr ops o.op_type) hw2
            rw [if_neg hflush]
            refine ⟨b2, d2, o2, ?_, ?_, ?_⟩
            · rw [heq]
              congr 1
              simp [List.mem_cons]
            · rw [hfl]
              simp [List.append_assoc]
            · rw [hsum, sumCounts_opsIncr]
              simp only [itemsOf_cons_item, List.length_cons]
              omega

/- ------------------------------------------------------------------ -/
/- Lemmas about the Fetcher.                                          -/
/- ------------------------------------------------------------------ -/

lemma getDocsStep_ok (now index : String) (ids : List String) (ts : TsMap)
    (acc : FetchAcc) (d : Doc) (ld : Option LazyDownload) (acc2 : FetchAcc)
    (h : getDocsStep now index ids ts acc (d, ld) = Except.ok acc2) :
    ∃ i, docGet d "_id" = some i ∧ acc2.seen_ids = acc.seen_ids.insert i
      ∧ ((acc2.queued = acc.queued
            ∧ acc2.total_docs_created = acc.total_docs_created
            ∧ acc2.total_docs_updated = acc.total_docs_updated)
         ∨ (∃ q, isUpsertItem q = true ∧ acc2.queued = acc.queued ++ [q]
              ∧ acc2.total_docs_created + acc2.total_docs_updated
                = acc.total_docs_created + acc.total_docs_updated + 1)) := by
  unfold getDocsStep at h
  cases hid : docGet d "_id" with
  | none =>
      simp only [hid] at h
      exact Except.noConfusion h
  | some i =>
      simp only [hid] at h
      cases hts : docGet (assignId d i) "timestamp" with
      | some t =>
          simp only [hts] at h
          by_cases hcond : tsGet ts i = t
          · simp only [if_pos hcond] at h
            cases ld with
            | none => exact Except.noConfusion h
            | some l =>
                rw [Except.ok.injEq] at h
                subst h
                exact ⟨i, rfl, rfl, Or.inl ⟨rfl, rfl, rfl⟩⟩
          · simp only [if_neg hcond] at h
            rw [Except.ok.injEq] at h
            subst h
            obtain ⟨q, hq, hup⟩ := classifyEnqueue_queued index ids
              { acc with seen_ids := acc.seen_ids.insert i } i (assignId d i) ld
            obtain ⟨hcnt, hseen⟩ := classifyEnqueue_counters index ids
              { acc with seen_ids := acc.seen_ids.insert i } i (assignId d i) ld
            exact ⟨i, rfl, hseen, Or.inr ⟨q, hup, hq, hcnt⟩⟩
      | none =>
          simp only [hts] at h
          rw [Except.ok.injEq] at h
          subst h
          obtain ⟨q, hq, hup⟩ := classifyEnqueue_queued index ids
            { acc with seen_ids := acc.seen_ids.insert i } i
            (docInsert (assignId d i) "timestamp" now) ld
          obtain ⟨hcnt, hseen⟩ := classifyEnqueue_counters index ids
            { acc with seen_ids := acc.seen_ids.insert i } i
            (docInsert (assignId d i) "timestamp" now) ld
          exact ⟨i, rfl, hseen, Or.inr ⟨q, hup, hq, hcnt⟩⟩

lemma getDocsLoop_ok (now index : String) (ids : List String) (ts : TsMap)
    (gen : List (Doc × Option LazyDownload)) :
    ∀ (acc acc2 : FetchAcc), getDocsLoop now index ids ts acc gen = Except.ok acc2 →
      (acc2.total_docs_created + acc2.total_docs_updated
          + (acc.queued.filter isUpsertItem).length
        = acc.total_docs_created + acc.total_docs_updated
          + (acc2.queued.filter isUpsertItem).length)
      ∧ (∀ q ∈ acc2.queued, q ∈ acc.queued ∨ isUpsertItem q = true)
      ∧ (∀ x ∈ acc.seen_ids, x ∈ acc2.seen_ids)
      ∧ (∀ d2 ld2 i, (d2, ld2) ∈ gen → docGet d2 "_id" = some i →
          i ∈ acc2.seen_ids) := by
  induction gen with
  | nil =>
      intro acc acc2 h
      unfold getDocsLoop at h
      rw [Except.ok.injEq] at h
      subst h
      exact ⟨rfl, fun q hq => Or.inl hq, fun x hx => hx, fun d2 ld2 i hm => absurd hm (by simp)⟩
  | cons p rest ih =>
      intro acc acc2 h
      obtain ⟨d, ld⟩ := p
      unfold getDocsLoop at h
      split at h
      · cases h
      · rename_i acc1 hstep
        obtain ⟨hcount, hqueued, hseen, hgen⟩ := ih acc1 acc2 h
        obtain ⟨i, hid, hseen1, hcase⟩ := getDocsStep_ok now index ids ts acc d ld acc1 hstep
        refine ⟨?_, ?_, ?_, ?_⟩
        · rcases hcase with ⟨hq, hc, hu⟩ | ⟨q, hup, hq, hcnt⟩
          · rw [hq] at hcount
            omega
          · rw [hq] at hcount
            rw [List.filter_append] at hcount
            simp [hup] at hcount
            omega
        · intro q hq2
          rcases hqueued q hq2 with hq2 | hq2
          · rcases hcase with ⟨hq, _, _⟩ | ⟨q3, _, hq, _⟩
            · exact Or.inl (hq ▸ hq2)
            · rw [hq] at hq2
              rcases List.mem_append.mp hq2 with hq2 | hq2
              · exact Or.inl hq2
              · rename_i hup2 _
                rw [List.mem_singleton.mp hq2]
                exact Or.inr hup2
          · exact Or.inr hq2
        · intro x hx
          refine hseen x ?_
          rw [hseen1, List.mem_insert_iff]
          exact Or.inr hx
        · intro d2 ld2 i2 hm hid2
          rcases List.mem_cons.mp hm with hm | hm
          · have hdd : d2 = d := congrArg Prod.fst hm
            subst hdd
            rw [hid] at hid2
            rw [Option.some.injEq] at hid2
            subst hid2
            refine hseen _ ?_
            rw [hseen1, List.mem_insert_iff]
            exact Or.inl rfl
          · exact hgen d2 ld2 i2 hm hid2

lemma getDocs_ok (now index : String) (ids : List String) (ts : TsMap)
    (gen : List (Doc × Option LazyDownload)) (acc : FetchAcc)
    (h : getDocs now index ids ts gen = Except.ok acc) :
    ∃ acc0, getDocsLoop now index ids ts ⟨[], [], [], 0, 0⟩ gen = Except.ok acc0
      ∧ acc.seen_ids = acc0.seen_ids
      ∧ acc.queued = acc0.queued ++ deletesFor index ids acc0.seen_ids ++ [QItem.endDocs]
      ∧ acc.downloads = acc0.downloads
      ∧ acc.total_docs_created = acc0.total_docs_created
      ∧ acc.total_docs_updated = acc0.total_docs_updated := by
  unfold getDocs at h
  split at h
  · cases h
  · rename_i acc0 hl
    rw [Except.ok.injEq] at h
    subst h
    exact ⟨acc0, hl, rfl, rfl, rfl, rfl, rfl⟩

lemma mem_deletesFor (index : String) (ids seen : List String) (q : QItem)
    (h : q ∈ deletesFor index ids seen) :
    ∃ i, i ∈ ids ∧ i ∉ seen ∧ q = QItem.item (mkDelete index i) := by
  unfold deletesFor at h
  obtain ⟨i, hi, hq⟩ := List.mem_map.mp h
  obtain ⟨hmem, hdec⟩ := List.mem_filter.mp hi
  exact ⟨i, hmem, by simpa using hdec, hq.symm⟩

lemma itemsOf_deletesFor (index : String) (ids seen : List String) :
    (itemsOf (deletesFor index ids seen)).length
      = (deletesFor index ids seen).length := by
  unfold deletesFor itemsOf
  rw [List.filterMap_map]
  simp

lemma upsert_items_length (qs : List QItem) (h : ∀ q ∈ qs, isUpsertItem q = true) :
    (itemsOf qs).length = qs.length := by
  induction qs with
  | nil => simp
  | cons q rest ih =>
      have hq := h q (List.mem_cons_self _ _)
      have ihr := ih fun x hx => h x (List.mem_cons_of_mem _ hx)
      match q with
      | QItem.item o => simp [ihr]
      | QItem.endDocs => exact absurd hq (by decide)
      | QItem.endDownloads => exact absurd hq (by decide)

lemma upsert_filter_length (qs : List QItem) (h : ∀ q ∈ qs, isUpsertItem q = true) :
    (qs.filter isUpsertItem).length = qs.length := by
  rw [List.filter_eq_self.mpr h]

lemma upsert_ne_sentinels (q : QItem) (h : isUpsertItem q = true) :
    q ≠ QItem.endDocs ∧ q ≠ QItem.endDownloads := by
  match q with
  | QItem.item o => exact ⟨by simp, by simp⟩
  | QItem.endDocs => exact absurd h (by decide)
  | QItem.endDownloads => exact absurd h (by decide)

lemma getAttachmentsLoop_spec (index : String) (rs : List (Option Doc)) :
    (∀ q ∈ (getAttachmentsLoop index rs).1, isUpsertItem q = true)
    ∧ (itemsOf (getAttachmentsLoop index rs).1).length
        = (getAttachmentsLoop index rs).2 := by
  induction rs with
  | nil => exact ⟨by simp [getAttachmentsLoop], by simp [getAttachmentsLoop]⟩
  | cons r rest ih =>
      cases r with
      | none => simpa [getAttachmentsLoop] using ih
      | some data =>
          constructor
          · intro q hq
            rw [getAttachmentsLoop] at hq
            rcases List.mem_cons.mp hq with hq | hq
            · rw [hq]
              rfl
            · exact ih.1 q hq
          · rw [getAttachmentsLoop]
            simp only [itemsOf_cons_item, List.length_cons]
            rw [ih.2]

lemma bulkerRun_no_create (chunk : Nat) (qs : List QItem) (i d : String) :
    ∀ b ∈ (bulkerRun chunk qs).dispatched, WireEntry.action "create" i d ∉ b := by
  intro b hb
  have hloop := bulkerLoop_no_create chunk i d qs false false [] [] []
    (by simp) (by simp)
  simp only [bulkerRun] at hb
  split at hb
  · rcases List.mem_append.mp hb with hb | hb
    · exact hloop.2 b hb
    · rw [List.mem_singleton.mp hb]
      exact hloop.1
  · exact hloop.2 b hb

/- ------------------------------------------------------------------ -/
/- Claim theorems.                                                    -/
/- ------------------------------------------------------------------ -/

/-- Claim C1, counterexample.  A document whose id is absent from the
snapshot id set is classified as create, but the batch the Bulker
dispatches for it contains an "update" action descriptor followed by the
upsert body — no "create" action descriptor appears anywhere, so the claim
that creates are emitted with the "create" action is false. -/
theorem create_action_cex :
    getDocs "T0" "idx" [] [] [([("_id", "a"), ("f", "v")], none)]
      = Except.ok ⟨["a"],
          [QItem.item ⟨"create", "idx", "a",
             some [("f", "v"), ("id", "a"), ("timestamp", "T0")]⟩,
           QItem.endDocs], [], 1, 0⟩
    ∧ (bulkerRun chunk_size
        ([QItem.item ⟨"create", "idx", "a",
            some [("f", "v"), ("id", "a"), ("timestamp", "T0")]⟩,
          QItem.endDocs] ++ (getAttachments "idx" []).1)).dispatched
        = [[WireEntry.action "update" "idx" "a",
            WireEntry.body (some [("f", "v"), ("id", "a"), ("timestamp", "T0")])]]
    ∧ WireEntry.action "create" "idx" "a"
        ∉ (bulkerRun chunk_size
            ([QItem.item ⟨"create", "idx", "a",
                some [("f", "v"), ("id", "a"), ("timestamp", "T0")]⟩,
              QItem.endDocs] ++ (getAttachments "idx" []).1)).dispatched.flatten :=
  ⟨by rfl, by rfl, by decide⟩

/-- Claim C1, amended: in every Bulker run no dispatched wire entry is a
"create" action descriptor, and a create-classified operation is encoded
exactly like an update: an "update" action descriptor `{update, index, id}`
followed by the `doc_as_upsert` body. -/
theorem create_encoded_as_update (chunk : Nat) (qs : List QItem) (i d : String) :
    WireEntry.action "create" i d ∉ (bulkerRun chunk qs).dispatched.flatten
    ∧ ∀ o : OpItem, o.op_type = "create" →
        encodeWire o
          = [WireEntry.action "update" o.index o.id, WireEntry.body o.doc] := by
  constructor
  · intro hmem
    rw [List.mem_flatten] at hmem
    obtain ⟨b, hb, hmemb⟩ := hmem
    exact bulkerRun_no_create chunk qs i d b hb hmemb
  · intro o ho
    unfold encodeWire
    rw [if_pos (Or.inr ho)]

/-- Witness for the amended C1 theorem at a concrete create operation. -/
theorem create_encoded_as_update_witness :
    WireEntry.action "create" "idx" "a"
      ∉ (bulkerRun 500 [QItem.item ⟨"create", "idx", "a", some [("id", "a")]⟩,
            QItem.endDocs, QItem.endDownloads]).dispatched.flatten
    ∧ encodeWire ⟨"create", "idx", "a", some [("id", "a")]⟩
        = [WireEntry.action "update" "idx" "a", WireEntry.body (some [("id", "a")])] :=
  ⟨(create_encoded_as_update 500 [QItem.item ⟨"create", "idx", "a", some [("id", "a")]⟩,
      QItem.endDocs, QItem.endDownloads] "idx" "a").1,
   (create_encoded_as_update 500 [] "idx" "a").2
     ⟨"create", "idx", "a", some [("id", "a")]⟩ rfl⟩

set_option maxRecDepth 100000 in
/-- Claim C2, counterexample.  With the source's chunk_size of 500, a run
over 999 delete operations (one wire entry each) followed by one update
(two wire entries) dispatches a mid-run batch of 1001 wire entries, which
exceeds 2 * chunkSize = 1000 — and it is larger, not smaller, so the
final-flush exemption cannot cover it either. -/
theorem oversized_batch_cex :
    (bulkerRun chunk_size oddBatchInput).dispatched.map List.length = [1001]
    ∧ (bulkerRun chunk_size oddBatchInput).finished = true
    ∧ ¬(1001 ≤ chunk_size * 2) :=
  ⟨by rfl, by rfl, by decide⟩

/-- Claim C2, amended: with a positive chunk size, every batch handed to a
dispatch call (the mid-run flushes and the final flush alike) holds at most
2 * chunkSize + 1 wire entries; the bound 2 * chunkSize itself can be
exceeded by exactly one entry, when a two-entry create/update lands on a
batch holding an odd number of entries. -/
theorem dispatched_batch_bound (chunk : Nat) (qs : List QItem) (hc : 0 < chunk) :
    ∀ b ∈ (bulkerRun chunk qs).dispatched, b.length ≤ chunk * 2 + 1 := by
  have hloop := bulkerLoop_bound chunk hc qs false false [] [] []
    (by simp only [List.length_nil]; omega) (by simp)
  intro b hb
  simp only [bulkerRun] at hb
  split at hb
  · rcases List.mem_append.mp hb with hb | hb
    · exact hloop.2 b hb
    · rw [List.mem_singleton.mp hb]
      have := hloop.1
      omega
  · exact hloop.2 b hb

/-- Witness for the amended C2 theorem at chunk size 1. -/
theorem dispatched_batch_bound_witness :
    ([WireEntry.action "delete" "idx" "x"] : List WireEntry).length ≤ 1 * 2 + 1 :=
  dispatched_batch_bound 1
    [QItem.item (mkDelete "idx" "x"), QItem.endDocs, QItem.endDownloads]
    (by decide) [WireEntry.action "delete" "idx" "x"] (by decide)

/-- Claim C8, confirmed: the drain loop terminates exactly when both
end-of-stream sentinels have been observed, in either order: with the
first sentinel somewhere in the prefix `ws` (which is free of the second),
the run consumes the stream exactly up to the second sentinel, leaves the
rest of the queue untouched, ends with an empty accumulator (a non-empty
remaining batch is dispatched by the post-loop flush), and the gathered
dispatch list carries every wire entry of every consumed operation; with
only one sentinel kind present the loop never finishes. -/
theorem drain_stops_at_second_sentinel (chunk : Nat) (ws rest : List QItem)
    (s1 s2 : QItem)
    (hss : (s1 = QItem.endDocs ∧ s2 = QItem.endDownloads)
         ∨ (s1 = QItem.endDownloads ∧ s2 = QItem.endDocs))
    (h1 : s1 ∈ ws) (h2 : s2 ∉ ws) :
    (bulkerRun chunk (ws ++ s2 :: rest)).finished = true
    ∧ (bulkerRun chunk (ws ++ s2 :: rest)).leftover = rest
    ∧ (bulkerRun chunk (ws ++ s2 :: rest)).batch = []
    ∧ (bulkerRun chunk (ws ++ s2 :: rest)).dispatched.flatten
        = (itemsOf ws).flatMap encodeWire
    ∧ (bulkerRun chunk ws).finished = false := by
  have main : ∃ b2 d2 o2,
      bulkerLoop chunk false false [] [] [] (ws ++ s2 :: rest)
        = ⟨true, b2, d2, o2, rest⟩
      ∧ d2.flatten ++ b2 = (itemsOf ws).flatMap encodeWire := by
    rcases hss with ⟨hs1, hs2⟩ | ⟨hs1, hs2⟩
    · subst hs1 hs2
      obtain ⟨b2, d2, o2, heq, hfl, hsum⟩ :=
        skimDocs chunk (QItem.endDownloads :: rest) ws false [] [] [] h2
      have hflag : (false || decide (QItem.endDocs ∈ ws)) = true := by simp [h1]
      rw [hflag] at heq
      refine ⟨b2, d2, o2, ?_, by simpa using hfl⟩
      rw [heq]
      simp [bulkerLoop]
    · subst hs1 hs2
      obtain ⟨b2, d2, o2, heq, hfl, hsum⟩ :=
        skimDownloads chunk (QItem.endDocs :: rest) ws false [] [] [] h2
      have hflag : (false || decide (QItem.endDownloads ∈ ws)) = true := by simp [h1]
      rw [hflag] at heq
      refine ⟨b2, d2, o2, ?_, by simpa using hfl⟩
      rw [heq]
      simp [bulkerLoop]
  have stuck : (bulkerRun chunk ws).finished = false := by
    have hter : ∃ b3 d3 o3,
        bulkerLoop chunk false false [] [] [] ws = ⟨false, b3, d3, o3, []⟩ := by
      rcases hss with ⟨hs1, hs2⟩ | ⟨hs1, hs2⟩
      · subst hs2
        obtain ⟨b3, d3, o3, heq, hfl, hsum⟩ :=
          skimDocs chunk [] ws false [] [] [] h2
        rw [List.append_nil] at heq
        exact ⟨b3, d3, o3, by rw [heq]; simp [bulkerLoop]⟩
      · subst hs2
        obtain ⟨b3, d3, o3, heq, hfl, hsum⟩ :=
          skimDownloads chunk [] ws false [] [] [] h2
        rw [List.append_nil] at heq
        exact ⟨b3, d3, o3, by rw [heq]; simp [bulkerLoop]⟩
    obtain ⟨b3, d3, o3, heq⟩ := hter
    simp [bulkerRun, heq]
  obtain ⟨b2, d2, o2, heq, hfl⟩ := main
  by_cases hbe : b2.isEmpty
  · have hb2 : b2 = [] := List.isEmpty_iff.mp hbe
    subst hb2
    refine ⟨?_, ?_, ?_, ?_, stuck⟩ <;> simp [bulkerRun, heq]
    simpa using hfl
  · refine ⟨?_, ?_, ?_, ?_, stuck⟩ <;>
      simp [bulkerRun, heq, hbe]
    exact hfl

/-- Claim C7: the skip path calls `lazy_download(doit=False)` without a
`None` check, so a pair whose timestamp matches the snapshot but that
carries no download capability raises `TypeError` instead of being skipped
without error — `get_docs` aborts on this input. -/
theorem skip_without_capability_crashes :
    getDocs "T0" "idx" ["a"] [("a", "T1")]
        [([("_id", "a"), ("timestamp", "T1")], none)]
      = Except.error "TypeError: NoneType object is not callable" := by rfl

/-- Claim C3, counterexample: the id "a" has no entry in the snapshot's
timestamp map, yet a document carrying the empty-string timestamp is
skipped (no operation is enqueued, both counters stay 0), because the
lookup default `.get(doc_id, "")` equals the document's timestamp. -/
theorem absent_id_skip_cex :
    docGet ([] : TsMap) "a" = none
    ∧ getDocs "T0" "idx" [] [] [([("_id", "a"), ("timestamp", "")], some ⟨none⟩)]
        = Except.ok ⟨["a"], [QItem.endDocs], [], 0, 0⟩ :=
  ⟨rfl, by rfl⟩

/-- Claim C3, amended: a document with a timestamp whose id has no entry in
the snapshot's timestamp map is skipped if and only if its timestamp is the
empty string (the lookup default); for any other timestamp value it is
never skipped. -/
theorem absent_id_skip_iff_empty_timestamp (now index : String)
    (ids : List String) (ts : TsMap) (acc : FetchAcc) (d : Doc)
    (ld : LazyDownload) (i t : String)
    (hid : docGet d "_id" = some i) (ht : docGet d "timestamp" = some t)
    (hmiss : docGet ts i = none) :
    (getDocsStep now index ids ts acc (d, some ld)
        = Except.ok { acc with seen_ids := acc.seen_ids.insert i })
      ↔ t = "" := by
  have hts : docGet (assignId d i) "timestamp" = some t := by
    rw [assignId_get_timestamp]
    exact ht
  have htg : tsGet ts i = "" := by simp [tsGet, hmiss]
  unfold getDocsStep
  simp only [hid, hts, htg]
  constructor
  · intro hstep
    by_contra hne
    rw [if_neg (fun hh => hne hh.symm)] at hstep
    rw [Except.ok.injEq] at hstep
    obtain ⟨q, hq, _⟩ := classifyEnqueue_queued index ids
      { acc with seen_ids := acc.seen_ids.insert i } i (assignId d i) (some ld)
    have hqq := congrArg FetchAcc.queued hstep
    rw [hq] at hqq
    simp at hqq
  · intro ht0
    subst ht0
    rw [if_pos rfl]

/-- Witness for the amended C3 theorem at a concrete absent-id document
with an empty timestamp. -/
theorem absent_id_skip_iff_witness :
    (getDocsStep "T0" "idx" [] [] ⟨[], [], [], 0, 0⟩
        ([("_id", "a"), ("timestamp", "")], some ⟨none⟩)
        = Except.ok ⟨["a"], [], [], 0, 0⟩)
      ↔ "" = "" :=
  absent_id_skip_iff_empty_timestamp "T0" "idx" [] [] ⟨[], [], [], 0, 0⟩
    [("_id", "a"), ("timestamp", "")] ⟨none⟩ "a" "" rfl rfl rfl

/-- Claim C4, counterexample: a generator that yields two documents with
the same id "a" (both without timestamps, id absent from the snapshot)
produces two create classifications: two create operations are enqueued
and total_docs_created ends at 2, not 1 — there is no per-pass
deduplication. -/
theorem duplicate_id_counted_twice_cex :
    getDocs "T0" "idx" [] [] [([("_id", "a")], none), ([("_id", "a")], none)]
      = Except.ok ⟨["a"],
          [QItem.item ⟨"create", "idx", "a", some [("id", "a"), ("timestamp", "T0")]⟩,
           QItem.item ⟨"create", "idx", "a", some [("id", "a"), ("timestamp", "T0")]⟩,
           QItem.endDocs], [], 2, 0⟩
    ∧ (2 : Nat) ≠ 1 :=
  ⟨by rfl, by decide⟩

/-- Claim C4, amended: classification happens once per yielded occurrence,
not once per id: over any completed `get_docs` pass the created and
updated counters together equal the number of create/update operations
enqueued, so a duplicated id is classified and counted once for each
non-skipped occurrence. -/
theorem counters_count_occurrences (now index : String) (ids : List String)
    (ts : TsMap) (gen : List (Doc × Option LazyDownload)) (acc : FetchAcc)
    (h : getDocs now index ids ts gen = Except.ok acc) :
    acc.total_docs_created + acc.total_docs_updated
      = (acc.queued.filter isUpsertItem).length := by
  obtain ⟨acc0, hl, hseen, hq, hdl, hc, hu⟩ := getDocs_ok now index ids ts gen acc h
  obtain ⟨hcount, hqueued, _, _⟩ := getDocsLoop_ok now index ids ts gen _ _ hl
  have hdel : (deletesFor index ids acc0.seen_ids).filter isUpsertItem = [] := by
    rw [List.filter_eq_nil_iff]
    intro q hqm
    obtain ⟨j, _, _, hj⟩ := mem_deletesFor index ids acc0.seen_ids q hqm
    rw [hj]
    simp [isUpsertItem, mkDelete]
  rw [hq, hc, hu]
  rw [List.filter_append, List.filter_append, hdel]
  simp only [List.filter_nil, List.length_nil] at hcount ⊢
  simp only [List.length_append]
  have hed : (([QItem.endDocs] : List QItem).filter isUpsertItem).length = 0 := by rfl
  rw [hed]
  simp only [List.length_nil]
  omega

/-- Witness for the amended C4 theorem at a one-document pass. -/
theorem counters_count_occurrences_witness :
    (1 : Nat) + 0
      = (([QItem.item ⟨"create", "idx", "a", some [("id", "a"), ("timestamp", "T0")]⟩,
           QItem.endDocs] : List QItem).filter isUpsertItem).length :=
  counters_count_occurrences "T0" "idx" [] [] [([("_id", "a")], none)]
    ⟨["a"],
     [QItem.item ⟨"create", "idx", "a", some [("id", "a"), ("timestamp", "T0")]⟩,
      QItem.endDocs], [], 1, 0⟩ (by rfl)

/-- Claim C9, confirmed: the document object handed onward by `get_docs`
is the caller's value rewritten in place — `_id` is removed, `id` is bound
to the removed value, and a document that carried no `timestamp` field
receives the wall-clock timestamp and is enqueued in exactly that mutated
form. -/
theorem doc_mutated_in_place (now index : String) (ids : List String)
    (ts : TsMap) (acc : FetchAcc) (d : Doc) (ld : Option LazyDownload)
    (i : String) (hid : docGet d "_id" = some i) :
    docGet (assignId d i) "_id" = none
    ∧ docGet (assignId d i) "id" = some i
    ∧ (docGet d "timestamp" = none →
        docGet (docInsert (assignId d i) "timestamp" now) "timestamp" = some now
        ∧ getDocsStep now index ids ts acc (d, ld)
            = Except.ok (classifyEnqueue index ids
                { acc with seen_ids := acc.seen_ids.insert i } i
                (docInsert (assignId d i) "timestamp" now) ld)) := by
  refine ⟨assignId_get_uid d i, assignId_get_id d i, ?_⟩
  intro hts
  have hts2 : docGet (assignId d i) "timestamp" = none := by
    rw [assignId_get_timestamp]
    exact hts
  refine ⟨docGet_insert_self _ _ _, ?_⟩
  unfold getDocsStep
  simp only [hid, hts2]

/-- Witness for the C9 theorem at a concrete timestamp-less document. -/
theorem doc_mutated_witness :
    docGet (assignId [("_id", "a"), ("f", "v")] "a") "_id" = none
    ∧ docGet (assignId [("_id", "a"), ("f", "v")] "a") "id" = some "a"
    ∧ (docGet ([("_id", "a"), ("f", "v")] : Doc) "timestamp" = none →
        docGet (docInsert (assignId [("_id", "a"), ("f", "v")] "a") "timestamp" "T0")
            "timestamp" = some "T0"
        ∧ getDocsStep "T0" "idx" [] [] ⟨[], [], [], 0, 0⟩
              ([("_id", "a"), ("f", "v")], none)
            = Except.ok (classifyEnqueue "idx" [] ⟨["a"], [], [], 0, 0⟩ "a"
                (docInsert (assignId [("_id", "a"), ("f", "v")] "a") "timestamp" "T0")
                none)) :=
  doc_mutated_in_place "T0" "idx" [] [] ⟨[], [], [], 0, 0⟩
    [("_id", "a"), ("f", "v")] none "a" rfl

/-- Claim C10, confirmed: an id the generator yielded — in particular one
whose document was skipped because its timestamp matched the snapshot —
is in the seen set after the pass, and no delete operation for it is ever
enqueued in the same pass. -/
theorem skipped_id_not_deleted (now index : String) (ids : List String)
    (ts : TsMap) (gen : List (Doc × Option LazyDownload)) (acc : FetchAcc)
    (d : Doc) (ld : Option LazyDownload) (i t : String)
    (h : getDocs now index ids ts gen = Except.ok acc)
    (hmem : (d, ld) ∈ gen) (hid : docGet d "_id" = some i)
    (_ht : docGet d "timestamp" = some t) (_hts : tsGet ts i = t) :
    i ∈ acc.seen_ids
    ∧ QItem.item (mkDelete index i) ∉ acc.queued := by
  obtain ⟨acc0, hl, hseen, hq, _, _, _⟩ := getDocs_ok now index ids ts gen acc h
  obtain ⟨_, hqueued, _, hgen⟩ := getDocsLoop_ok now index ids ts gen _ _ hl
  have hiseen : i ∈ acc0.seen_ids := hgen d ld i hmem hid
  refine ⟨by rw [hseen]; exact hiseen, ?_⟩
  rw [hq]
  intro hin
  rcases List.mem_append.mp hin with hin | hin
  · rcases List.mem_append.mp hin with hin | hin
    · rcases hqueued _ hin with h0 | h0
      · exact absurd h0 (by simp)
      · simp [isUpsertItem, mkDelete] at h0
    · obtain ⟨j, hj1, hj2, hj3⟩ := mem_deletesFor index ids acc0.seen_ids _ hin
      have hij : i = j := by
        simpa [mkDelete] using hj3
      subst hij
      exact hj2 hiseen
  · simp at hin

/-- Witness for the C10 theorem at a concrete skipped document. -/
theorem skipped_id_not_deleted_witness :
    "a" ∈ (["a"] : List String)
    ∧ QItem.item (mkDelete "idx" "a") ∉ ([QItem.endDocs] : List QItem) :=
  skipped_id_not_deleted "T0" "idx" ["a"] [("a", "T1")]
    [([("_id", "a"), ("timestamp", "T1")], some ⟨none⟩)]
    ⟨["a"], [QItem.endDocs], [], 0, 0⟩
    [("_id", "a"), ("timestamp", "T1")] (some ⟨none⟩) "a" "T1"
    (by rfl) (by simp) rfl rfl rfl

/-- Witness for the C8 theorem at a concrete two-element prefix. -/
theorem drain_stops_witness :
    (bulkerRun 500 ([QItem.item (mkDelete "idx" "x"), QItem.endDocs]
        ++ QItem.endDownloads :: [])).finished = true
    ∧ (bulkerRun 500 ([QItem.item (mkDelete "idx" "x"), QItem.endDocs]
        ++ QItem.endDownloads :: [])).leftover = []
    ∧ (bulkerRun 500 ([QItem.item (mkDelete "idx" "x"), QItem.endDocs]
        ++ QItem.endDownloads :: [])).batch = []
    ∧ (bulkerRun 500 ([QItem.item (mkDelete "idx" "x"), QItem.endDocs]
        ++ QItem.endDownloads :: [])).dispatched.flatten
        = (itemsOf [QItem.item (mkDelete "idx" "x"), QItem.endDocs]).flatMap encodeWire
    ∧ (bulkerRun 500 [QItem.item (mkDelete "idx" "x"), QItem.endDocs]).finished
        = false :=
  drain_stops_at_second_sentinel 500 [QItem.item (mkDelete "idx" "x"), QItem.endDocs]
    [] QItem.endDocs QItem.endDownloads (Or.inl ⟨rfl, rfl⟩) (by decide) (by decide)

/-- Claim C5, confirmed: over any completed `get_docs` pass with a
duplicate-free snapshot id set, the queue sequence decomposes into the
create/update operations from the generator phase, then the delete phase,
then the end-of-documents sentinel — so every delete is enqueued after
every create/update of the pass — and each snapshot id that was never
seen receives exactly one delete operation on the channel. -/
theorem deletes_once_after_docs (now index : String) (ids : List String)
    (ts : TsMap) (gen : List (Doc × Option LazyDownload)) (acc : FetchAcc)
    (hnd : ids.Nodup) (h : getDocs now index ids ts gen = Except.ok acc) :
    (∃ pre, acc.queued = pre ++ deletesFor index ids acc.seen_ids ++ [QItem.endDocs]
        ∧ ∀ q ∈ pre, isUpsertItem q = true)
    ∧ ∀ i, i ∈ ids → i ∉ acc.seen_ids →
        acc.queued.count (QItem.item (mkDelete index i)) = 1 := by
  obtain ⟨acc0, hl, hseen, hq, _, _, _⟩ := getDocs_ok now index ids ts gen acc h
  obtain ⟨_, hqueued, _, _⟩ := getDocsLoop_ok now index ids ts gen _ _ hl
  have hpre : ∀ q ∈ acc0.queued, isUpsertItem q = true := by
    intro q hqm
    rcases hqueued q hqm with hqm2 | hqm2
    · exact absurd hqm2 (by simp)
    · exact hqm2
  constructor
  · exact ⟨acc0.queued, by rw [hq, hseen], hpre⟩
  · intro i hi hni
    rw [hseen] at hni
    rw [hq]
    rw [List.count_append, List.count_append]
    have h1 : acc0.queued.count (QItem.item (mkDelete index i)) = 0 := by
      rw [List.count_eq_zero]
      intro hmemq
      have hups := hpre _ hmemq
      simp [isUpsertItem, mkDelete] at hups
    have h3 : ([QItem.endDocs] : List QItem).count (QItem.item (mkDelete index i))
        = 0 := by
      rw [List.count_eq_zero]
      simp
    have hinj : Function.Injective
        (fun j => QItem.item (mkDelete index j) : String → QItem) := by
      intro a b hab
      simpa [mkDelete] using hab
    have h2 : (deletesFor index ids acc0.seen_ids).count
        (QItem.item (mkDelete index i)) = 1 := by
      unfold deletesFor
      rw [List.count_map_of_injective _ _ hinj]
      refine List.count_eq_one_of_mem (hnd.filter _) ?_
      refine List.mem_filter.mpr ⟨hi, ?_⟩
      simpa using hni
    rw [h1, h2, h3]

/-- Witness for the C5 theorem at a one-id snapshot and an empty
generator. -/
theorem deletes_once_witness :
    (∃ pre, ([QItem.item (mkDelete "idx" "b"), QItem.endDocs] : List QItem)
        = pre ++ deletesFor "idx" ["b"] [] ++ [QItem.endDocs]
      ∧ ∀ q ∈ pre, isUpsertItem q = true)
    ∧ ∀ i, i ∈ (["b"] : List String) → i ∉ ([] : List String) →
        ([QItem.item (mkDelete "idx" "b"), QItem.endDocs] : List QItem).count
          (QItem.item (mkDelete "idx" i)) = 1 :=
  deletes_once_after_docs "T0" "idx" ["b"] [] []
    ⟨[], [QItem.item (mkDelete "idx" "b"), QItem.endDocs], [], 0, 0⟩
    (by decide) (by rfl)

/-- Claim C6, counterexample: a completed sync over one new document whose
lazy download yields attachment fields.  The Bulker consumes two
operations (one create, one download-update), so the counter map sums to
2, while documentsCreated + documentsUpdated + deletesEmitted = 1 + 0 + 0:
the claimed equality fails whenever an attachment is extracted. -/
theorem sync_counts_cex :
    async_bulk chunk_size "T0" "idx" [] []
        [([("_id", "a")], some ⟨some [("_id", "att1"), ("data", "z")]⟩)]
      = Except.ok ⟨[("create", 1), ("update", 1)], 1, 1, 0⟩
    ∧ sumCounts [("create", 1), ("update", 1)] = 2
    ∧ deletesFor "idx" [] ["a"] = []
    ∧ 1 + 0 + 0 ≠ 2 :=
  ⟨by rfl, by rfl, by rfl, by decide⟩

/-- Claim C6, amended: for every completed sync the operations consumed by
the Bulker into dispatched batches are exactly documentsCreated +
documentsUpdated + attachmentsExtracted + deletesEmitted; the original
equality must also count the update operations injected by completed
downloads. -/
theorem sync_totals_include_downloads (chunk : Nat) (now index : String)
    (ids : List String) (ts : TsMap) (gen : List (Doc × Option LazyDownload))
    (acc : FetchAcc) (s : SyncResult)
    (h : getDocs now index ids ts gen = Except.ok acc)
    (hs : async_bulk chunk now index ids ts gen = Except.ok s) :
    sumCounts s.bulk_operations
      = s.doc_created + s.doc_updated + s.attachment_extracted
        + (deletesFor index ids acc.seen_ids).length := by
  unfold async_bulk at hs
  split at hs
  · rename_i e he
    rw [h] at he
    cases he
  · rename_i acc2 hacc2
    rw [h, Except.ok.injEq] at hacc2
    subst hacc2
    rw [Except.ok.injEq] at hs
    subst hs
    obtain ⟨acc0, hl, hseen, hq, hdl, hc, hu⟩ := getDocs_ok now index ids ts gen acc h
    obtain ⟨hcount, hqueued, _, _⟩ := getDocsLoop_ok now index ids ts gen _ _ hl
    have hpre : ∀ q ∈ acc0.queued, isUpsertItem q = true := by
      intro q hqm
      rcases hqueued q hqm with hqm2 | hqm2
      · exact absurd hqm2 (by simp)
      · exact hqm2
    have hatt := getAttachmentsLoop_spec index acc.downloads
    have hw2 : QItem.endDownloads
        ∉ acc0.queued ++ deletesFor index ids acc0.seen_ids ++ [QItem.endDocs]
          ++ (getAttachmentsLoop index acc.downloads).1 := by
      intro hmm
      rcases List.mem_append.mp hmm with hmm | hmm
      · rcases List.mem_append.mp hmm with hmm | hmm
        · rcases List.mem_append.mp hmm with hmm | hmm
          · exact (upsert_ne_sentinels _ (hpre _ hmm)).2 rfl
          · obtain ⟨j, _, _, hj⟩ := mem_deletesFor index ids acc0.seen_ids _ hmm
            cases hj
        · simp at hmm
      · exact (upsert_ne_sentinels _ (hatt.1 _ hmm)).2 rfl
    have hinput : acc.queued ++ (getAttachments index acc.downloads).1
        = (acc0.queued ++ deletesFor index ids acc0.seen_ids ++ [QItem.endDocs]
            ++ (getAttachmentsLoop index acc.downloads).1)
          ++ QItem.endDownloads :: [] := by
      rw [hq]
      simp [getAttachments, List.append_assoc]
    obtain ⟨b2, d2, o2, heq, hfl, hsum⟩ :=
      skimDocs chunk (QItem.endDownloads :: [])
        (acc0.queued ++ deletesFor index ids acc0.seen_ids ++ [QItem.endDocs]
          ++ (getAttachmentsLoop index acc.downloads).1)
        false [] [] [] hw2
    have hflag : (false || decide (QItem.endDocs
        ∈ acc0.queued ++ deletesFor index ids acc0.seen_ids ++ [QItem.endDocs]
          ++ (getAttachmentsLoop index acc.downloads).1)) = true := by
      simp
    rw [hflag] at heq
    have hloopeq : bulkerLoop chunk false false [] [] []
        (acc.queued ++ (getAttachments index acc.downloads).1)
        = ⟨true, b2, d2, o2, []⟩ := by
      rw [hinput, heq]
      simp [bulkerLoop]
    have hops : (bulkerRun chunk
        (acc.queued ++ (getAttachments index acc.downloads).1)).ops = o2 := by
      simp only [bulkerRun, hloopeq]
      split <;> rfl
    have hL : (itemsOf acc0.queued).length = acc0.queued.length :=
      upsert_items_length _ hpre
    have hLc : acc0.total_docs_created + acc0.total_docs_updated
        = acc0.queued.length := by
      rw [← upsert_filter_length _ hpre]
      simp only [List.filter_nil, List.length_nil] at hcount
      omega
    have hA : (itemsOf (getAttachmentsLoop index acc.downloads).1).length
        = (getAttachmentsLoop index acc.downloads).2 := hatt.2
    have hD := itemsOf_deletesFor index ids acc0.seen_ids
    simp only at hops
    rw [hops, hsum]
    simp only [itemsOf_append, List.length_append, sumCounts, List.map_nil,
      List.sum_nil, itemsOf_cons_endDocs, itemsOf_nil, List.length_nil]
    rw [hL, hA, hD]
    simp only [hc, hu, hseen, getAttachments]
    omega

/-- Witness for the amended C6 theorem at the one-document,
one-attachment sync. -/
theorem sync_totals_witness :
    sumCounts ([("create", 1), ("update", 1)] : OpsMap)
      = 1 + 0 + 1 + (deletesFor "idx" [] ["a"]).length :=
  sync_totals_include_downloads chunk_size "T0" "idx" [] []
    [([("_id", "a")], some ⟨some [("_id", "att1"), ("data", "z")]⟩)]
    ⟨["a"],
     [QItem.item ⟨"create", "idx", "a", some [("id", "a"), ("timestamp", "T0")]⟩,
      QItem.endDocs],
     [some [("_id", "att1"), ("data", "z")]], 1, 0⟩
    ⟨[("create", 1), ("update", 1)], 1, 1, 0⟩ (by rfl) (by rfl)

end Byoei
